import Mathlib

/-!
Shallow embedding of the golf-outing service (Cloudflare worker, `src/index.js`)
together with the SQL schema.  The core is the group-generation endpoint
`GET /api/outings/:outingId/groups` (lines 443-537 of the source): ordering
(stable sort by skill descending with name tie-break, or a Fisher-Yates
shuffle), snake-draft distribution over `numberOfGroups` buckets, cyclic
naming from a 26-entry catalog, and recomputation of each group's total skill.
JavaScript numbers are modelled as rationals where non-integral request values
matter (validation) and as integers where the values are stored integer skills
and counts; strings are Lean strings, and the injected entropy of
`Math.random()` is a list of natural draws, one per shuffle step, interpreted
modulo the step's range.
-/

/-- A player row as selected for group generation: `SELECT p.id, p.name, p.skill`.
The stored skill is an integer (schema: `skill INTEGER`). -/
structure Player where
  id : String
  name : String
  skill : ℤ
deriving DecidableEq

instance : Inhabited Player := ⟨⟨"", "", 0⟩⟩

/-- A group under construction in the generation endpoint:
`{ name, players: [], totalSkill: 0 }` (source line 503-508). -/
structure GolfGroup where
  name : String
  players : List Player
  totalSkill : ℤ
deriving DecidableEq

/-- The fixed catalog `GOLF_GROUP_NAMES` (source lines 443-451). -/
def GOLF_GROUP_NAMES : List String := [
  "The Fairway Fanatics", "The Driving Divas/Dudes", "The Bogey Brigade", "The Ace Alliance",
  "The Bunker Busters", "The Caddy Crew", "The Eagle Enforcers", "The Fore Horsemen",
  "The Green Guardians", "The Hazard Heroes", "The Iron Masters", "The Julep Jubilees",
  "The Mulligan Monarchs", "The Niblick Ninjas", "The On-Course Originals", "The Pin Seekers",
  "The Quagmire Conquerors", "The Rough Riders", "The Sand Trappers", "The Tee Time Titans",
  "The Under Par Unicorns", "The Victory Vardon", "The Wedge Wizards", "The X-Factor",
  "The Yardage Yetis", "The Zany Zephyrs"]

/-- The display name of group `i` (source line 505):
`GOLF_GROUP_NAMES[i % L] + (Math.floor(i / L) > 0 ? " (" + (Math.floor(i / L) + 1) + ")" : "")`. -/
def groupName (i : ℕ) : String :=
  GOLF_GROUP_NAMES.getD (i % GOLF_GROUP_NAMES.length) "" ++
    (if 0 < i / GOLF_GROUP_NAMES.length
      then " (" ++ toString (i / GOLF_GROUP_NAMES.length + 1) ++ ")" else "")

/-- `a.name.localeCompare(b.name)` (source line 499), modelled as the sign of the
lexicographic comparison of the two strings, returned as a JS number. -/
def localeCompareQ (a b : String) : ℤ :=
  if a < b then -1 else if b < a then 1 else 0

/-- The balanced-mode comparator (source lines 495-500):
`b.skill - a.skill` when the skills differ, otherwise `a.name.localeCompare(b.name)`. -/
def playerCompare (a b : Player) : ℤ :=
  if b.skill ≠ a.skill then b.skill - a.skill else localeCompareQ a.name b.name

/-- `a` may be placed no later than `b` by the stable sort: comparator value `≤ 0`. -/
def playerBefore (a b : Player) : Prop := playerCompare a b ≤ 0

instance : DecidableRel playerBefore :=
  fun a b => inferInstanceAs (Decidable (playerCompare a b ≤ 0))

/-- `currentPlayers.sort(comparator)` (source lines 495-500).  ECMAScript sort is
stable, so it is modelled by a stable insertion sort under `playerBefore`. -/
def sortPlayers (l : List Player) : List Player := List.insertionSort playerBefore l

/-- Swap the entries at positions `i` and `j` of a list, the JS destructuring
`[a[i], a[j]] = [a[j], a[i]]` (source line 491); out-of-range positions leave
the list unchanged (they never occur in the shuffle loop). -/
def swapList (l : List Player) (i j : ℕ) : List Player :=
  if i < l.length ∧ j < l.length then
    (l.set i (l.getD j default)).set j (l.getD i default)
  else l

/-- The shuffle loop of source lines 489-492, counting `i` down: at counter
`i+1` one draw `d` is consumed and positions `i+1` and `d % (i+2)` are swapped
(`Math.floor(Math.random() * (i + 2))` is a uniform choice in `[0, i+1]`,
modelled as the draw taken modulo `i+2`). -/
def fyAux : ℕ → List ℕ → List Player → List Player
  | 0, _, l => l
  | _ + 1, [], l => l
  | i + 1, d :: ds, l => fyAux i ds (swapList l (i + 1) (d % (i + 2)))

/-- The Fisher-Yates (Knuth) shuffle of source lines 488-492: steps at
`i = length-1, …, 1`, one injected draw per step. -/
def fisherYates (ds : List ℕ) (l : List Player) : List Player :=
  fyAux (l.length - 1) ds l

/-- The ordering step (source lines 487-501): shuffle when the `shuffle` query
flag is set, otherwise the deterministic balanced sort. -/
def orderPlayers (shuffle : Bool) (ds : List ℕ) (l : List Player) : List Player :=
  if shuffle then fisherYates ds l else sortPlayers l

/-- The initial group array (source lines 503-508):
`Array.from({length: numberOfGroups}, (_, i) => ({name…, players: [], totalSkill: 0}))`. -/
def mkGroups (numberOfGroups : ℕ) : List GolfGroup :=
  (List.range numberOfGroups).map fun i => { name := groupName i, players := [], totalSkill := 0 }

/-- Apply `f` to the element at position `i`, leaving the rest unchanged. -/
def modifyAt (f : GolfGroup → GolfGroup) : ℕ → List GolfGroup → List GolfGroup
  | _, [] => []
  | 0, g :: gs => f g :: gs
  | n + 1, g :: gs => g :: modifyAt f n gs

/-- One turn of the snake-draft index update (source lines 517-522):
advance by `direction`; if that leaves `[0, numberOfGroups-1]`, negate the
direction and advance again. -/
def nextIndex (numberOfGroups : ℕ) (groupIndex direction : ℤ) : ℤ × ℤ :=
  let gi := groupIndex + direction
  if gi ≥ (numberOfGroups : ℤ) ∨ gi < 0 then
    let dir := -direction
    (gi + dir, dir)
  else (gi, direction)

/-- `groups[groupIndex].players.push({id, name, skill}); groups[groupIndex].totalSkill += skill`
(source lines 514-515). -/
def pushPlayer (p : Player) (gr : GolfGroup) : GolfGroup :=
  { gr with players := gr.players ++ [p], totalSkill := gr.totalSkill + p.skill }

/-- The snake-draft distribution loop (source lines 510-523): one pass over the
ordered players, appending each to the group at the current index and then
stepping the `{groupIndex, direction}` state machine. -/
def distribute (numberOfGroups : ℕ) :
    List Player → ℤ → ℤ → List GolfGroup → List GolfGroup
  | [], _, _, groups => groups
  | p :: ps, groupIndex, direction, groups =>
    let groups' := modifyAt (pushPlayer p) groupIndex.toNat groups
    let st := nextIndex numberOfGroups groupIndex direction
    distribute numberOfGroups ps st.1 st.2 groups'

/-- The sequence of group indices visited by the distribution loop for a given
number of players, starting from the state of source lines 511-512. -/
def distIndices (numberOfGroups : ℕ) : ℕ → ℤ → ℤ → List ℤ
  | 0, _, _ => []
  | k + 1, groupIndex, direction =>
    let st := nextIndex numberOfGroups groupIndex direction
    groupIndex :: distIndices numberOfGroups k st.1 st.2

/-- `group.totalSkill = group.players.reduce((sum, p) => sum + p.skill, 0)`
(source lines 526-528). -/
def recomputeTotal (gr : GolfGroup) : GolfGroup :=
  { gr with totalSkill := (gr.players.map Player.skill).sum }

/-- The success payload of the endpoint.  The empty-outing branch (line 481)
omits `numberOfGroups` and carries `message`; the main branch (line 531)
carries `numberOfGroups` and no `message`. -/
structure GroupsResult where
  outingName : String
  numberOfGroups : Option ℕ
  groups : List GolfGroup
  message : Option String
deriving DecidableEq

/-- The non-empty path of the endpoint after ordering (source lines 503-531):
build the named empty groups, distribute from `groupIndex = 0`, `direction = 1`,
then recompute every total from final membership. -/
def buildResult (outingName : String) (numberOfGroups : ℕ) (current : List Player) :
    GroupsResult :=
  let groups := distribute numberOfGroups current 0 1 (mkGroups numberOfGroups)
  { outingName := outingName, numberOfGroups := some numberOfGroups,
    groups := groups.map recomputeTotal, message := none }

/-- The group-generation computation (source lines 480-531) for an outing with
display name `outingName` and configured count `numberOfGroups`, on the member
players, with the `shuffle` flag and the injected entropy `ds`. -/
def generateGroups (outingName : String) (numberOfGroups : ℕ) (players : List Player)
    (shuffle : Bool) (ds : List ℕ) : GroupsResult :=
  if players = [] then
    { outingName := outingName, numberOfGroups := none, groups := [],
      message := some "No players in this outing to form groups." }
  else
    buildResult outingName numberOfGroups (orderPlayers shuffle ds players)

/-- An outing row as read by the endpoint (line 464), with the stored group
count already known to be a positive integer (see the store invariant below). -/
structure Outing where
  name : String
  number_of_groups : ℕ
deriving DecidableEq

/-- The endpoint's observable outcome: a JSON success payload or an HTTP error. -/
inductive ApiResp where
  | ok (r : GroupsResult)
  | err (status : ℕ) (msg : String)
deriving DecidableEq

/-- `GET /api/outings/:outingId/groups` (source lines 453-537): 404 when the
outing lookup misses, otherwise the generation result on its members. -/
def groupsEndpoint (outing : Option Outing) (players : List Player)
    (shuffle : Bool) (ds : List ℕ) : ApiResp :=
  match outing with
  | none => ApiResp.err 404 "Outing not found."
  | some o => ApiResp.ok (generateGroups o.name o.number_of_groups players shuffle ds)

/-- The endpoint with the caller's player array held in an explicit heap of
arrays, to express JavaScript array aliasing: `r` is the reference to the
caller's array.  Line 485 (`let currentPlayers = [...players]`) allocates a
fresh array holding a copy of the contents, and the in-place ordering of lines
487-501 writes back through that fresh reference only. -/
def generateOnHeap (heap : List (List Player)) (r : ℕ) (outingName : String)
    (numberOfGroups : ℕ) (shuffle : Bool) (ds : List ℕ) :
    List (List Player) × GroupsResult :=
  let players := heap.getD r []
  if players = [] then
    (heap, { outingName := outingName, numberOfGroups := none, groups := [],
             message := some "No players in this outing to form groups." })
  else
    let rc := heap.length
    let heap1 := heap ++ [players]
    let heap2 := heap1.set rc (orderPlayers shuffle ds (heap1.getD rc []))
    (heap2, buildResult outingName numberOfGroups (heap2.getD rc []))

/-- A JSON field value as a handler sees it after `request.json()`: absent,
a JS number (finite numbers modelled as rationals), or a value of any other
runtime type (`typeof v !== 'number'`). -/
inductive JVal where
  | undef
  | num (q : ℚ)
  | other
deriving DecidableEq

/-- `POST /api/players` skill validation (source line 37): the request errors
with 400 exactly when
`skill === undefined || typeof skill !== 'number' || skill < 1 || skill > 10`. -/
def postSkillRejected : JVal → Bool
  | .undef => true
  | .num q => decide (q < 1) || decide (q > 10)
  | .other => true

/-- `PUT /api/players/:id` skill validation (source lines 115-118): when a
skill field is present it errors with 400 exactly when
`typeof skill !== 'number' || skill < 1 || skill > 10`; an absent field is
simply not updated. -/
def putSkillRejected : JVal → Bool
  | .undef => false
  | .num q => decide (q < 1) || decide (q > 10)
  | .other => true

/-- `Number.isInteger(q)` for a finite JS number modelled as a rational. -/
def isIntegerQ (q : ℚ) : Bool := decide (q.den = 1)

/-- A stored `outings` row (schema lines 8-12): the `number_of_groups` column
holds whatever JS number the validated handlers bound into the INSERT/UPDATE. -/
structure OutingRec where
  id : String
  name : String
  number_of_groups : ℚ
deriving DecidableEq

/-- `POST /api/outings` handling of `numberOfGroups` (source lines 216-221):
reject unless absent or a positive integer
(`typeof … !== 'number' || !Number.isInteger(…) || … < 1` errors with 400),
default an absent value to 3; returns the value stored on success. -/
def postOutingNumGroups : JVal → Option ℚ
  | .undef => some 3
  | .num q => if isIntegerQ q ∧ 1 ≤ q then some q else none
  | .other => none

/-- `PUT /api/outings/:id` handling of `numberOfGroups` (source lines 281-287):
an absent field leaves the column untouched; a present one is rejected unless
it is a positive integer; returns `some (new column value)` on success. -/
def putOutingNumGroups (old : ℚ) : JVal → Option ℚ
  | .undef => some old
  | .num q => if isIntegerQ q ∧ 1 ≤ q then some q else none
  | .other => none

/-- The write operations that can touch the `outings` table. -/
inductive OutingOp where
  | create (id nm : String) (numberOfGroups : JVal)
  | update (id : String) (numberOfGroups : JVal)
  | delete (id : String)

/-- Effect of one request on the stored `outings` rows: rejected requests
(400 and 404 paths) write nothing. -/
def applyOutingOp (store : List OutingRec) : OutingOp → List OutingRec
  | .create id nm v =>
    match postOutingNumGroups v with
    | some q => store ++ [{ id := id, name := nm, number_of_groups := q }]
    | none => store
  | .update id v =>
    store.map fun o =>
      if o.id = id then
        match putOutingNumGroups o.number_of_groups v with
        | some q => { o with number_of_groups := q }
        | none => o
      else o
  | .delete id => store.filter fun o => o.id ≠ id

/-- Replay a request trace against an initially empty table. -/
def runOutingOps (ops : List OutingOp) : List OutingRec :=
  ops.foldl applyOutingOp []

/-- The stored group count is a positive integer. -/
def outingOK (o : OutingRec) : Bool :=
  isIntegerQ o.number_of_groups && decide (1 ≤ o.number_of_groups)

/-- The worked example of the spec: ten players with skills 10 down to 1. -/
def demoPlayers : List Player :=
  [⟨"1", "Ann", 10⟩, ⟨"2", "Ben", 9⟩, ⟨"3", "Cal", 8⟩, ⟨"4", "Dee", 7⟩,
   ⟨"5", "Eli", 6⟩, ⟨"6", "Fay", 5⟩, ⟨"7", "Gus", 4⟩, ⟨"8", "Hal", 3⟩,
   ⟨"9", "Ivy", 2⟩, ⟨"10", "Jo", 1⟩]

/-- All draw sequences the shuffle can consume on a list of length `n`, one
entry in `[0, i]` for each step `i = n-1, …, 1` in loop order: the canonical
sample space of the injected entropy. -/
def canonDraws : ℕ → List (List ℕ)
  | 0 => [[]]
  | 1 => [[]]
  | n + 2 => (List.range (n + 2)).flatMap fun d => (canonDraws (n + 1)).map (d :: ·)

/-! ### Basic lemmas about the distribution loop -/

theorem modifyAt_length (f : GolfGroup → GolfGroup) :
    ∀ (i : ℕ) (l : List GolfGroup), (modifyAt f i l).length = l.length := by
  intro i l
  induction l generalizing i with
  | nil => cases i <;> rfl
  | cons g gs ih => cases i with
    | zero => rfl
    | succ n => simpa [modifyAt] using ih n

theorem modifyAt_map_name {f : GolfGroup → GolfGroup} (hf : ∀ gr, (f gr).name = gr.name) :
    ∀ (i : ℕ) (l : List GolfGroup),
      (modifyAt f i l).map GolfGroup.name = l.map GolfGroup.name := by
  intro i l
  induction l generalizing i with
  | nil => cases i <;> rfl
  | cons g gs ih => cases i with
    | zero => simp [modifyAt, hf]
    | succ n => simpa [modifyAt] using ih n

theorem modifyAt_push_flatten (p : Player) :
    ∀ (i : ℕ) (l : List GolfGroup), i < l.length →
      (((modifyAt (pushPlayer p) i l).map GolfGroup.players).flatten).Perm
        (p :: (l.map GolfGroup.players).flatten) := by
  intro i l
  induction l generalizing i with
  | nil => intro h; simp at h
  | cons g gs ih =>
    intro h
    cases i with
    | zero =>
      simp only [modifyAt, pushPlayer, List.map_cons, List.flatten_cons]
      rw [List.append_assoc]
      exact List.perm_middle
    | succ n =>
      simp only [modifyAt, List.map_cons, List.flatten_cons]
      have h1 := ih n (by simpa using h)
      exact (h1.append_left g.players).trans List.perm_middle

theorem nextIndex_eq (g : ℕ) (gi dir : ℤ) :
    nextIndex g gi dir =
      if gi + dir ≥ (g : ℤ) ∨ gi + dir < 0 then (gi, -dir) else (gi + dir, dir) := by
  simp only [nextIndex]
  split
  · simp
  · rfl

theorem nextIndex_invariant {g : ℕ} {gi dir : ℤ} (hg : 1 ≤ g)
    (h0 : 0 ≤ gi) (h1 : gi < g) (hd : dir = 1 ∨ dir = -1) :
    (0 ≤ (nextIndex g gi dir).1 ∧ (nextIndex g gi dir).1 < g) ∧
      ((nextIndex g gi dir).2 = 1 ∨ (nextIndex g gi dir).2 = -1) := by
  rw [nextIndex_eq]
  rcases hd with h | h <;> subst h <;> split <;> rename_i hc <;>
    refine ⟨⟨?_, ?_⟩, ?_⟩ <;> simp at hc ⊢ <;> omega

theorem distribute_length (g : ℕ) :
    ∀ (ps : List Player) (gi dir : ℤ) (gl : List GolfGroup),
      (distribute g ps gi dir gl).length = gl.length := by
  intro ps
  induction ps with
  | nil => intro gi dir gl; rfl
  | cons p pt ih =>
    intro gi dir gl
    simp only [distribute]
    rw [ih, modifyAt_length]

theorem distribute_map_name (g : ℕ) :
    ∀ (ps : List Player) (gi dir : ℤ) (gl : List GolfGroup),
      (distribute g ps gi dir gl).map GolfGroup.name = gl.map GolfGroup.name := by
  intro ps
  induction ps with
  | nil => intro gi dir gl; rfl
  | cons p pt ih =>
    intro gi dir gl
    simp only [distribute]
    rw [ih, modifyAt_map_name]
    intro gr; rfl

theorem distribute_flatten_perm {g : ℕ} (hg : 1 ≤ g) :
    ∀ (ps : List Player) (gi dir : ℤ) (gl : List GolfGroup),
      0 ≤ gi → gi < g → (dir = 1 ∨ dir = -1) → gl.length = g →
      (((distribute g ps gi dir gl).map GolfGroup.players).flatten).Perm
        ((gl.map GolfGroup.players).flatten ++ ps) := by
  intro ps
  induction ps with
  | nil => intro gi dir gl _ _ _ _; simp [distribute]
  | cons p pt ih =>
    intro gi dir gl h0 h1 hd hlen
    have hidx : gi.toNat < gl.length := by omega
    have hnext := nextIndex_invariant hg h0 h1 hd
    simp only [distribute]
    have h2 := ih (nextIndex g gi dir).1 (nextIndex g gi dir).2
      (modifyAt (pushPlayer p) gi.toNat gl) hnext.1.1 hnext.1.2 hnext.2
      (by rw [modifyAt_length]; exact hlen)
    have h3 := (modifyAt_push_flatten p gi.toNat gl hidx).append_right pt
    exact (h2.trans h3).trans List.perm_middle.symm

/-! ### Basic lemmas about the shuffle -/

theorem cons_set_getD_perm :
    ∀ (l : List Player) (k : ℕ), k < l.length → ∀ a : Player,
      ((l.getD k default) :: l.set k a).Perm (a :: l) := by
  intro l
  induction l with
  | nil => intro k h; simp at h
  | cons x xs ih =>
    intro k h a
    cases k with
    | zero => simpa using List.Perm.swap a x xs
    | succ n =>
      have h1 := ih n (by simpa using h) a
      simp only [List.getD_cons_succ, List.set_cons_succ]
      exact (List.Perm.swap x _ _).trans ((h1.cons x).trans (List.Perm.swap a x xs))

theorem set_set_perm :
    ∀ (l : List Player) (i j : ℕ), i < l.length → j < l.length →
      ((l.set i (l.getD j default)).set j (l.getD i default)).Perm l := by
  intro l
  induction l with
  | nil => intro i j h; simp at h
  | cons x xs ih =>
    intro i j hi hj
    cases i with
    | zero =>
      cases j with
      | zero => simp
      | succ k =>
        simp only [List.getD_cons_zero, List.getD_cons_succ, List.set_cons_zero,
          List.set_cons_succ]
        exact cons_set_getD_perm xs k (by simpa using hj) x
    | succ m =>
      cases j with
      | zero =>
        simp only [List.getD_cons_zero, List.getD_cons_succ, List.set_cons_zero,
          List.set_cons_succ]
        exact cons_set_getD_perm xs m (by simpa using hi) x
      | succ k =>
        simp only [List.getD_cons_succ, List.set_cons_succ]
        exact (ih m k (by simpa using hi) (by simpa using hj)).cons x

theorem swapList_perm (l : List Player) (i j : ℕ) : (swapList l i j).Perm l := by
  unfold swapList
  split
  · rename_i h
    exact set_set_perm l i j h.1 h.2
  · exact List.Perm.refl l

theorem swapList_length (l : List Player) (i j : ℕ) :
    (swapList l i j).length = l.length := by
  unfold swapList
  split <;> simp

theorem fyAux_perm : ∀ (c : ℕ) (ds : List ℕ) (l : List Player), (fyAux c ds l).Perm l := by
  intro c
  induction c with
  | zero => intro ds l; exact List.Perm.refl l
  | succ i ih =>
    intro ds l
    cases ds with
    | nil => exact List.Perm.refl l
    | cons d dt => exact (ih dt _).trans (swapList_perm l (i + 1) (d % (i + 2)))

theorem fyAux_length (c : ℕ) (ds : List ℕ) (l : List Player) :
    (fyAux c ds l).length = l.length :=
  (fyAux_perm c ds l).length_eq

theorem fisherYates_perm (ds : List ℕ) (l : List Player) : (fisherYates ds l).Perm l :=
  fyAux_perm (l.length - 1) ds l

theorem fisherYates_length (ds : List ℕ) (l : List Player) :
    (fisherYates ds l).length = l.length :=
  (fisherYates_perm ds l).length_eq

theorem sortPlayers_perm (l : List Player) : (sortPlayers l).Perm l :=
  List.perm_insertionSort playerBefore l

theorem orderPlayers_perm (shuffle : Bool) (ds : List ℕ) (l : List Player) :
    (orderPlayers shuffle ds l).Perm l := by
  unfold orderPlayers
  cases shuffle with
  | false => exact sortPlayers_perm l
  | true => exact fisherYates_perm ds l

/-! ### Support lemmas about the generator pipeline -/

theorem recomputeTotal_players (gr : GolfGroup) : (recomputeTotal gr).players = gr.players := rfl

theorem recomputeTotal_name (gr : GolfGroup) : (recomputeTotal gr).name = gr.name := rfl

theorem mkGroups_length (g : ℕ) : (mkGroups g).length = g := by
  simp [mkGroups]

theorem mkGroups_map_name (g : ℕ) :
    (mkGroups g).map GolfGroup.name = (List.range g).map groupName := by
  simp [mkGroups, List.map_map]

theorem mkGroups_flatten_nil (g : ℕ) :
    ((mkGroups g).map GolfGroup.players).flatten = [] := by
  induction g with
  | zero => rfl
  | succ n ih =>
    simp only [mkGroups, List.range_succ, List.map_append, List.flatten_append] at ih ⊢
    simp [ih]

/-! ### Claim theorems: the worked example, partition, determinism, shapes -/

/-- Claim C1: in balanced mode with players of skills 10,9,…,1 (already sorted
descending, as the balanced sort confirms) and `groupCount = 3`, the snake
draft visits group indices 0,1,2,2,1,0,0,1,2,2 — the boundary group taking two
consecutive players at each turn — so group 0 gets skills 10,5,4, group 1 gets
9,6,3, group 2 gets 8,7,2,1, with totals 19, 18, 18. -/
theorem snake_draft_worked_example :
    distIndices 3 10 0 1 = [0, 1, 2, 2, 1, 0, 0, 1, 2, 2] ∧
    sortPlayers demoPlayers = demoPlayers ∧
    (generateGroups "Demo" 3 demoPlayers false []).groups.map
        (fun gr => gr.players.map Player.skill) =
      [[10, 5, 4], [9, 6, 3], [8, 7, 2, 1]] ∧
    (generateGroups "Demo" 3 demoPlayers false []).groups.map GolfGroup.totalSkill =
      [19, 18, 18] :=
  ⟨by decide, by decide, by decide, by decide⟩

/-- Claim C2: for every `groupCount ≥ 1`, every non-empty player list and both
modes, the concatenation of the generated groups' member lists is a
permutation of the input players — each input player appears exactly once. -/
theorem generation_partitions_players (outingName : String) (g : ℕ) (ps : List Player)
    (sh : Bool) (ds : List ℕ) (hg : 1 ≤ g) (hps : ps ≠ []) :
    (((generateGroups outingName g ps sh ds).groups.map GolfGroup.players).flatten).Perm ps := by
  unfold generateGroups
  rw [if_neg hps]
  unfold buildResult
  simp only [List.map_map]
  have hcomp : GolfGroup.players ∘ recomputeTotal = GolfGroup.players := rfl
  rw [hcomp]
  have h1 := distribute_flatten_perm hg (orderPlayers sh ds ps) 0 1 (mkGroups g)
    le_rfl (by exact_mod_cast hg) (Or.inl rfl) (mkGroups_length g)
  rw [mkGroups_flatten_nil, List.nil_append] at h1
  exact h1.trans (orderPlayers_perm sh ds ps)

theorem generation_partitions_players_witness :
    1 ≤ 2 ∧ demoPlayers ≠ [] ∧
      (((generateGroups "Demo" 2 demoPlayers true [7, 3, 4]).groups.map
          GolfGroup.players).flatten).Perm demoPlayers :=
  ⟨by decide, by decide,
    generation_partitions_players "Demo" 2 demoPlayers true [7, 3, 4] (by decide) (by decide)⟩

/-- Claim C3: balanced-mode generation is deterministic — it does not consume
the injected entropy, so two invocations on the same players and group count
give identical names, contents and totals. -/
theorem balanced_mode_deterministic (outingName : String) (g : ℕ) (ps : List Player)
    (ds₁ ds₂ : List ℕ) :
    generateGroups outingName g ps false ds₁ = generateGroups outingName g ps false ds₂ := rfl

/-- Claim C5: an existing outing with zero member players yields a successful
response with an empty `groups` list and an explanatory message, whatever the
configured group count and mode. -/
theorem empty_outing_successful_empty_groups (o : Outing) (sh : Bool) (ds : List ℕ) :
    groupsEndpoint (some o) [] sh ds =
      ApiResp.ok { outingName := o.name, numberOfGroups := none, groups := [],
                   message := some "No players in this outing to form groups." } := rfl

/-- Claim C6: group `i` is named with catalog entry `i mod 26`, with the
parenthesised suffix `(i div 26) + 1` appended exactly when `i ≥ 26`, and the
names of groups 0 through 51 (twice the catalog length) are pairwise
distinct. -/
theorem group_names_catalog_and_unique :
    (∀ i : ℕ, groupName i =
        GOLF_GROUP_NAMES.getD (i % 26) "" ++
          (if 26 ≤ i then " (" ++ toString (i / 26 + 1) ++ ")" else "")) ∧
    ((List.range 52).map groupName).Nodup := by
  constructor
  · intro i
    unfold groupName
    have hlen : GOLF_GROUP_NAMES.length = 26 := rfl
    rw [hlen]
    congr 1
    by_cases h : 26 ≤ i
    · rw [if_pos (by omega), if_pos h]
    · rw [if_neg (by omega), if_neg h]
  · decide

/-- Claim C8: for every `groupCount ≥ 1` and non-empty player list, the result
has exactly `groupCount` groups in generation order 0,…,groupCount-1 (witnessed
by their catalog names), and every group's `totalSkill` equals the sum of its
members' skills — including groups that received no players. -/
theorem generation_result_shape (outingName : String) (g : ℕ) (ps : List Player)
    (sh : Bool) (ds : List ℕ) (hg : 1 ≤ g) (hps : ps ≠ []) :
    (generateGroups outingName g ps sh ds).groups.length = g ∧
    (generateGroups outingName g ps sh ds).groups.map GolfGroup.name =
      (List.range g).map groupName ∧
    ∀ gr ∈ (generateGroups outingName g ps sh ds).groups,
      gr.totalSkill = (gr.players.map Player.skill).sum := by
  unfold generateGroups
  rw [if_neg hps]
  unfold buildResult
  refine ⟨?_, ?_, ?_⟩
  · rw [List.length_map, distribute_length, mkGroups_length]
  · rw [List.map_map]
    have hcomp : GolfGroup.name ∘ recomputeTotal = GolfGroup.name := rfl
    rw [hcomp, distribute_map_name, mkGroups_map_name]
  · intro gr hgr
    rw [List.mem_map] at hgr
    obtain ⟨gr', _, rfl⟩ := hgr
    rfl

theorem generation_result_shape_witness :
    1 ≤ 12 ∧ demoPlayers ≠ [] ∧
      (generateGroups "Demo" 12 demoPlayers false []).groups.length = 12 :=
  ⟨by decide, by decide,
    (generation_result_shape "Demo" 12 demoPlayers false [] (by decide) (by decide)).1⟩

/-! ### Claim theorems: skill validation (C4) and the outing store invariant (C10) -/

/-- Claim C4 fails on the code: the skill checks of `POST /api/players` and
`PUT /api/players/:id` test only `typeof skill !== 'number' || skill < 1 ||
skill > 10` and never `Number.isInteger`, so the non-integer 5.5 — which the
endpoints' own error text ("must be an integer between 1 and 10") and the
schema's `skill INTEGER` column say must be rejected — passes both
validations. -/
theorem skill_five_point_five_accepted :
    postSkillRejected (JVal.num (11 / 2)) = false ∧
    putSkillRejected (JVal.num (11 / 2)) = false ∧
    isIntegerQ (11 / 2) = false := by
  have h1 : ¬((11 : ℚ) / 2 < 1) := by norm_num
  have h2 : ¬((11 : ℚ) / 2 > 10) := by norm_num
  have h3 : ((11 : ℚ) / 2).den = 2 := by norm_num
  refine ⟨?_, ?_, ?_⟩ <;> simp [postSkillRejected, putSkillRejected, isIntegerQ, h1, h2, h3]

theorem outingOK_preserved (store : List OutingRec) (op : OutingOp)
    (h : store.all outingOK = true) : (applyOutingOp store op).all outingOK = true := by
  have hmem : ∀ o ∈ store, outingOK o = true := by
    intro o ho; exact List.all_eq_true.mp h o ho
  cases op with
  | create id nm v =>
    cases v with
    | undef =>
      simp only [applyOutingOp, postOutingNumGroups, List.all_append, Bool.and_eq_true, h,
        true_and, List.all_cons, List.all_nil, Bool.and_true]
      simp [outingOK, isIntegerQ]
    | num q =>
      simp only [applyOutingOp, postOutingNumGroups]
      split
      · rename_i q' hq'
        rw [List.all_append, h, Bool.true_and, List.all_cons, List.all_nil, Bool.and_true]
        split at hq'
        · rename_i hcond
          cases hq'
          simp [outingOK, hcond.1, hcond.2]
        · cases hq'
      · exact h
    | other => simpa [applyOutingOp, postOutingNumGroups] using h
  | update id v =>
    rw [applyOutingOp, List.all_eq_true]
    intro o' ho'
    rw [List.mem_map] at ho'
    obtain ⟨o, ho, rfl⟩ := ho'
    split
    · cases v with
      | undef => simpa [putOutingNumGroups] using hmem o ho
      | num q =>
        simp only [putOutingNumGroups]
        split
        · rename_i q' hq'
          split at hq'
          · rename_i hcond
            cases hq'
            simp [outingOK, hcond.1, hcond.2]
          · cases hq'
        · exact hmem o ho
      | other => simpa [putOutingNumGroups] using hmem o ho
    · exact hmem o ho
  | delete id =>
    rw [applyOutingOp, List.all_eq_true]
    intro o ho
    exact hmem o (List.mem_of_mem_filter ho)

theorem foldl_outingOK (ops : List OutingOp) :
    ∀ store : List OutingRec, store.all outingOK = true →
      (ops.foldl applyOutingOp store).all outingOK = true := by
  induction ops with
  | nil => intro store h; exact h
  | cons op rest ih =>
    intro store h
    exact ih (applyOutingOp store op) (outingOK_preserved store op h)

/-- Claim C10: every stored outing row has a positive integer
`number_of_groups` — creation defaults an absent value to 3, creation and
update reject any provided value that is not a positive integer (the equations
below characterise the accept/reject behaviour), so the invariant holds along
every trace of requests against an initially empty table. -/
theorem outings_number_of_groups_invariant :
    (∀ ops : List OutingOp, (runOutingOps ops).all outingOK = true) ∧
    (∀ store : List OutingRec, ∀ id nm : String,
      applyOutingOp store (OutingOp.create id nm JVal.undef) =
        store ++ [{ id := id, name := nm, number_of_groups := 3 }]) ∧
    (∀ v : JVal, ∀ q : ℚ, v = JVal.num q →
      postOutingNumGroups v = (if isIntegerQ q ∧ 1 ≤ q then some q else none) ∧
      ∀ old : ℚ, putOutingNumGroups old v = (if isIntegerQ q ∧ 1 ≤ q then some q else none)) := by
  refine ⟨?_, ?_, ?_⟩
  · intro ops
    exact foldl_outingOK ops [] rfl
  · intro store id nm
    rfl
  · rintro v q rfl
    exact ⟨rfl, fun old => rfl⟩

/-! ### Claim theorem: the input array is not mutated (C9) -/

/-- Claim C9: group generation does not mutate the caller's player array.
With JavaScript arrays modelled as heap cells, the endpoint clones the array
referenced by `r` (line 485) and sorts or shuffles only the clone, so after
either mode runs the cell at `r` still holds the original sequence; moreover
the produced payload is exactly the pure generation result on the original
contents. -/
theorem generation_does_not_mutate_input (heap : List (List Player)) (r : ℕ)
    (outingName : String) (g : ℕ) (sh : Bool) (ds : List ℕ) (hr : r < heap.length) :
    (generateOnHeap heap r outingName g sh ds).1.getD r [] = heap.getD r [] ∧
    (generateOnHeap heap r outingName g sh ds).2 =
      generateGroups outingName g (heap.getD r []) sh ds := by
  simp only [generateOnHeap, generateGroups]
  by_cases hp : heap.getD r [] = []
  · rw [if_pos hp, if_pos hp]
    exact ⟨rfl, rfl⟩
  · rw [if_neg hp, if_neg hp]
    have hA : (heap ++ [heap.getD r []]).getD heap.length [] = heap.getD r [] := by
      rw [List.getD_eq_getElem?_getD, List.getElem?_append_right (le_refl heap.length)]
      simp
    rw [hA]
    constructor
    · rw [List.getD_eq_getElem?_getD,
        List.getElem?_set_ne (by omega : heap.length ≠ r),
        List.getElem?_append_left hr, ← List.getD_eq_getElem?_getD]
    · have hB : ((heap ++ [heap.getD r []]).set heap.length
          (orderPlayers sh ds (heap.getD r []))).getD heap.length [] =
          orderPlayers sh ds (heap.getD r []) := by
        rw [List.getD_eq_getElem?_getD, List.getElem?_set_self (by simp)]
        rfl
      rw [hB]

theorem generation_does_not_mutate_input_witness :
    0 < ([[⟨"1", "Ann", 10⟩]] : List (List Player)).length ∧
      (generateOnHeap [[⟨"1", "Ann", 10⟩]] 0 "Demo" 1 false []).1.getD 0 [] =
        ([[⟨"1", "Ann", 10⟩]] : List (List Player)).getD 0 [] :=
  ⟨by decide,
    (generation_does_not_mutate_input [[⟨"1", "Ann", 10⟩]] 0 "Demo" 1 false []
      (by decide)).1⟩

/-! ### Structure of the shuffle: one step isolates the last position -/

theorem getD_append_left {l1 l2 : List Player} {n : ℕ} (h : n < l1.length) (d : Player) :
    (l1 ++ l2).getD n d = l1.getD n d := by
  rw [List.getD_eq_getElem?_getD, List.getElem?_append_left h, ← List.getD_eq_getElem?_getD]

theorem set_append_left {l1 l2 : List Player} {n : ℕ} (h : n < l1.length) (x : Player) :
    (l1 ++ l2).set n x = l1.set n x ++ l2 := by
  rw [List.set_append, if_pos h]

theorem set_last : ∀ (l : List Player) (m : ℕ), l.length = m + 1 → ∀ c : Player,
    l.set m c = l.take m ++ [c] := by
  intro l
  induction l with
  | nil => intro m h; simp at h
  | cons x xs ih =>
    intro m h c
    cases m with
    | zero =>
      have hnil : xs = [] := by simpa using h
      subst hnil; rfl
    | succ n =>
      rw [List.set_cons_succ, List.take_succ_cons, List.cons_append,
        ih n (by simpa using h) c]

theorem swapList_append (l2 : List Player) {l1 : List Player} {i j : ℕ}
    (hi : i < l1.length) (hj : j < l1.length) :
    swapList (l1 ++ l2) i j = swapList l1 i j ++ l2 := by
  unfold swapList
  rw [if_pos (show i < (l1 ++ l2).length ∧ j < (l1 ++ l2).length by
        rw [List.length_append]; omega),
    if_pos ⟨hi, hj⟩]
  rw [getD_append_left hj, getD_append_left hi, set_append_left hi,
    set_append_left (by simpa using hj)]

theorem swapList_last_decomp {l : List Player} {m j : ℕ}
    (hlen : l.length = m + 1) (hj : j < m + 1) :
    swapList l m j = (l.set j (l.getD m default)).take m ++ [l.getD j default] := by
  have hm : m < l.length := by omega
  have hjl : j < l.length := by omega
  unfold swapList
  rw [if_pos ⟨hm, hjl⟩]
  rcases Nat.lt_or_ge j m with hlt | hge
  · rw [List.set_comm _ _ _ (by omega : m ≠ j)]
    exact set_last (l.set j (l.getD m default)) m (by simpa using hlen) (l.getD j default)
  · have hjm : j = m := by omega
    subst hjm
    rw [List.set_set]
    have hsl := set_last l j hlen (l.getD j default)
    rw [hsl, List.take_append_of_le_length (by simp [hlen]), List.take_take]
    simp

theorem fyAux_append : ∀ (c : ℕ) (ds : List ℕ) (l1 l2 : List Player), c < l1.length →
    fyAux c ds (l1 ++ l2) = fyAux c ds l1 ++ l2 := by
  intro c
  induction c with
  | zero => intro ds l1 l2 _; rfl
  | succ i ih =>
    intro ds l1 l2 hc
    cases ds with
    | nil => rfl
    | cons d dt =>
      have hmod : d % (i + 2) < i + 2 := Nat.mod_lt d (by omega)
      simp only [fyAux]
      rw [swapList_append l2 hc (by omega)]
      exact ih dt _ l2 (by rw [swapList_length]; omega)

theorem fisherYates_cons_eq {l : List Player} {m : ℕ} (h : l.length = m + 2)
    (d : ℕ) (ds : List ℕ) :
    fisherYates (d :: ds) l = fyAux m ds (swapList l (m + 1) (d % (m + 2))) := by
  unfold fisherYates
  rw [h]
  show fyAux (m + 1) (d :: ds) l = _
  rfl

/-- The first `n-1` entries after the first shuffle step with draw `d` on a
list of length `m+2`: the drawn position now holds the old last element. -/
def fyPrefix (l : List Player) (m d : ℕ) : List Player :=
  (l.set d (l.getD (m + 1) default)).take (m + 1)

theorem fyPrefix_length {l : List Player} {m : ℕ} (h : l.length = m + 2) (d : ℕ) :
    (fyPrefix l m d).length = m + 1 := by
  simp only [fyPrefix, List.length_take, List.length_set, h]
  omega

theorem fisherYates_cons_decomp {l : List Player} {m : ℕ} (hlen : l.length = m + 2)
    {d : ℕ} (hd : d < m + 2) (ds : List ℕ) :
    fisherYates (d :: ds) l = fisherYates ds (fyPrefix l m d) ++ [l.getD d default] := by
  rw [fisherYates_cons_eq hlen d ds, Nat.mod_eq_of_lt hd]
  have hswap : swapList l (m + 1) d = fyPrefix l m d ++ [l.getD d default] :=
    swapList_last_decomp (by omega) (by omega)
  rw [hswap, fyAux_append m ds _ _ (by rw [fyPrefix_length hlen]; omega)]
  congr 1
  unfold fisherYates
  rw [fyPrefix_length hlen]
  norm_num

theorem fyPrefix_append_perm {l : List Player} {m : ℕ} (hlen : l.length = m + 2)
    {d : ℕ} (hd : d < m + 2) :
    (fyPrefix l m d ++ [l.getD d default]).Perm l := by
  unfold fyPrefix
  rw [← swapList_last_decomp (show l.length = m + 1 + 1 by omega) (by omega)]
  exact swapList_perm l (m + 1) d

theorem canonDraws_length : ∀ n : ℕ, (canonDraws n).length = n.factorial
  | 0 => rfl
  | 1 => rfl
  | (n + 2) => by
    have ih := canonDraws_length (n + 1)
    rw [canonDraws, List.length_flatMap]
    have hmap : ∀ d ∈ List.range (n + 2),
        (List.length ∘ fun d => (canonDraws (n + 1)).map (d :: ·)) d = (n + 1).factorial := by
      intro d _
      simp [List.length_map, ih]
    rw [List.map_congr_left hmap]
    have hsum : ∀ (k c : ℕ), ((List.range k).map fun _ => c).sum = k * c := by
      intro k c
      induction k with
      | zero => simp
      | succ k ihk => rw [List.range_succ, List.map_append, List.sum_append, ihk]; simp; ring
    rw [hsum]
    simp only [Nat.factorial_succ]

theorem sum_map_range_single {k : ℕ} : ∀ n : ℕ, k < n →
    ((List.range n).map fun d => if d = k then 1 else 0).sum = 1 := by
  intro n
  induction n with
  | zero => intro h; omega
  | succ n ihn =>
    intro hk
    rw [List.range_succ, List.map_append, List.sum_append]
    by_cases h : k = n
    · subst h
      have hz : ((List.range k).map fun d => if d = k then 1 else 0).sum = 0 := by
        apply List.sum_eq_zero
        intro y hy
        rw [List.mem_map] at hy
        obtain ⟨d, hd, rfl⟩ := hy
        rw [List.mem_range] at hd
        simp [Nat.ne_of_lt hd]
      simp [hz]
    · have hk' : k < n := by omega
      rw [ihn hk']
      simp [Ne.symm h]

theorem fisherYates_filter_count :
    ∀ (n : ℕ) (l : List Player), l.length = n → l.Nodup → ∀ p : List Player,
      ((canonDraws n).filter fun ds => decide (fisherYates ds l = p)).length =
        if p.Perm l then 1 else 0 := by
  intro n
  induction n using Nat.strong_induction_on with
  | _ n ih =>
    rcases n with _ | n1
    · intro l hlen hnd p
      have hl0 : l = [] := List.length_eq_zero.mp hlen
      subst hl0
      have hfy : ∀ ds : List ℕ, fisherYates ds ([] : List Player) = [] := fun ds => rfl
      by_cases hp : p = []
      · subst hp
        simp [canonDraws, List.filter, hfy, List.Perm.refl]
      · rw [if_neg (fun hcon => hp (List.perm_nil.mp hcon))]
        have hdec : decide (fisherYates [] ([] : List Player) = p) = false :=
          decide_eq_false (fun h => hp ((hfy []).symm.trans h).symm)
        simp [canonDraws, List.filter, hdec]
    · rcases n1 with _ | m
      · intro l hlen hnd p
        obtain ⟨a, rfl⟩ := List.length_eq_one.mp hlen
        have hfy : ∀ ds : List ℕ, fisherYates ds [a] = [a] := fun ds => rfl
        by_cases hp : p = [a]
        · subst hp
          simp [canonDraws, List.filter, hfy, List.Perm.refl]
        · rw [if_neg (fun hcon => hp (List.perm_singleton.mp hcon))]
          have hdec : decide (fisherYates [] [a] = p) = false :=
            decide_eq_false (fun h => hp ((hfy []).symm.trans h).symm)
          simp [canonDraws, List.filter, hdec]
      · intro l hlen hnd p
        by_cases hperm : p.Perm l
        · rw [if_pos hperm]
          have hpne : p ≠ [] := by
            intro h0
            rw [h0] at hperm
            rw [List.perm_comm, List.perm_nil] at hperm
            rw [hperm] at hlen
            simp at hlen
          obtain ⟨q, x, rfl⟩ : ∃ q x, p = q ++ [x] :=
            ⟨p.dropLast, p.getLast hpne, (List.dropLast_append_getLast hpne).symm⟩
          have hxl : x ∈ l := hperm.subset (by simp)
          have hk : List.indexOf x l < l.length := List.indexOf_lt_length.mpr hxl
          set k := List.indexOf x l with hkdef
          have hkm : k < m + 2 := by omega
          have hgetk : l.getD k default = x := by
            rw [List.getD_eq_getElem l default hk]
            exact List.getElem_indexOf hk
          have hqlen : q.length = m + 1 := by
            have := hperm.length_eq
            rw [List.length_append, List.length_singleton, hlen] at this
            omega
          have hcd : canonDraws (m + 2) =
              (List.range (m + 2)).flatMap fun d => (canonDraws (m + 1)).map (d :: ·) := rfl
          rw [hcd, List.filter_flatMap, List.length_flatMap]
          have hinner : ∀ d ∈ List.range (m + 2),
              (List.length ∘ fun d =>
                  List.filter (fun ds => decide (fisherYates ds l = q ++ [x]))
                    ((canonDraws (m + 1)).map (d :: ·))) d =
                if d = k then 1 else 0 := by
            intro d hd
            rw [List.mem_range] at hd
            simp only [Function.comp]
            rw [List.filter_map, List.length_map]
            by_cases hdk : d = k
            · rw [if_pos hdk]
              have hgetd : l.getD d default = x := by rw [hdk]; exact hgetk
              have hpre : (fyPrefix l m d ++ [x]).Perm l := by
                rw [← hgetd]
                exact fyPrefix_append_perm hlen hd
              have hprend : (fyPrefix l m d).Nodup :=
                List.Nodup.of_append_left (hpre.symm.nodup hnd)
              have hprelen : (fyPrefix l m d).length = m + 1 := fyPrefix_length hlen d
              have hqpre : q.Perm (fyPrefix l m d) := by
                rw [← List.perm_append_right_iff [x]]
                exact hperm.trans hpre.symm
              have hcongr : List.filter
                    ((fun ds => decide (fisherYates ds l = q ++ [x])) ∘ (d :: ·))
                    (canonDraws (m + 1)) =
                  List.filter (fun ds => decide (fisherYates ds (fyPrefix l m d) = q))
                    (canonDraws (m + 1)) := by
                apply List.filter_congr
                intro ds _
                simp only [Function.comp]
                rw [decide_eq_decide]
                rw [fisherYates_cons_decomp hlen hd ds, hgetd]
                rw [← List.concat_eq_append, ← List.concat_eq_append, List.concat_inj_left]
              rw [hcongr]
              rw [ih (m + 1) (by omega) (fyPrefix l m d) hprelen hprend q]
              rw [if_pos hqpre]
            · rw [if_neg hdk]
              rw [List.length_eq_zero, List.filter_eq_nil_iff]
              intro ds _
              simp only [Function.comp, decide_eq_true_eq]
              intro hEq
              rw [fisherYates_cons_decomp hlen hd ds] at hEq
              have hlast : l.getD d default = x := by
                have hlen1 : (fisherYates ds (fyPrefix l m d)).length = q.length := by
                  rw [fisherYates_length, fyPrefix_length hlen, hqlen]
                have := List.append_inj_right hEq hlen1
                simpa using this
              apply hdk
              have hdl : d < l.length := by omega
              have hgd : l.getD d default = l.getD k default := by rw [hlast, hgetk]
              rw [List.getD_eq_getElem l default hdl, List.getD_eq_getElem l default hk] at hgd
              exact (List.Nodup.getElem_inj_iff hnd).mp hgd
          rw [List.map_congr_left hinner]
          exact sum_map_range_single (m + 2) hkm
        · rw [if_neg hperm]
          rw [List.length_eq_zero, List.filter_eq_nil_iff]
          intro ds _
          simp only [decide_eq_true_eq]
          intro hEq
          exact hperm (hEq ▸ fisherYates_perm ds l)

/-- Claim C7: the randomized-mode ordering is a Fisher-Yates shuffle.  Each
step at position `i` (from `n-1` down to `1`) consumes one injected draw and
swaps position `i` with a position in `[0, i]`; the canonical draw space for a
list of length `n` has `n!` elements; and for a duplicate-free player list,
every permutation `p` of it is produced by exactly one canonical draw sequence
(and non-permutations by none) — so under uniform draws each of the `n!`
orderings has probability `1/n!`. -/
theorem fisherYates_unbiased (l : List Player) (hl : l.Nodup) (p : List Player) :
    (∀ (d : ℕ) (ds : List ℕ) (m : ℕ), l.length = m + 2 →
        fisherYates (d :: ds) l = fyAux m ds (swapList l (m + 1) (d % (m + 2))) ∧
          d % (m + 2) ≤ m + 1) ∧
    (canonDraws l.length).length = l.length.factorial ∧
    ((canonDraws l.length).filter fun ds => decide (fisherYates ds l = p)).length =
      if p.Perm l then 1 else 0 := by
  refine ⟨?_, canonDraws_length l.length, fisherYates_filter_count l.length l rfl hl p⟩
  intro d ds m h
  refine ⟨fisherYates_cons_eq h d ds, ?_⟩
  have := Nat.mod_lt d (show 0 < m + 2 by omega)
  omega

theorem fisherYates_unbiased_witness :
    ([⟨"1", "Ann", 10⟩, ⟨"2", "Ben", 9⟩, ⟨"3", "Cal", 8⟩] : List Player).Nodup ∧
      ((canonDraws ([⟨"1", "Ann", 10⟩, ⟨"2", "Ben", 9⟩, ⟨"3", "Cal", 8⟩] :
            List Player).length).filter fun ds =>
          decide (fisherYates ds [⟨"1", "Ann", 10⟩, ⟨"2", "Ben", 9⟩, ⟨"3", "Cal", 8⟩] =
            [⟨"3", "Cal", 8⟩, ⟨"1", "Ann", 10⟩, ⟨"2", "Ben", 9⟩])).length =
        if ([⟨"3", "Cal", 8⟩, ⟨"1", "Ann", 10⟩, ⟨"2", "Ben", 9⟩] : List Player).Perm
            [⟨"1", "Ann", 10⟩, ⟨"2", "Ben", 9⟩, ⟨"3", "Cal", 8⟩] then 1 else 0 :=
  ⟨by decide,
    (fisherYates_unbiased [⟨"1", "Ann", 10⟩, ⟨"2", "Ben", 9⟩, ⟨"3", "Cal", 8⟩] (by decide)
      [⟨"3", "Cal", 8⟩, ⟨"1", "Ann", 10⟩, ⟨"2", "Ben", 9⟩]).2.2⟩
